import Mathlib

/-!
Verification of the panorama downsampler (panorama.c) against its
natural-language specification.  The C program is shallowly embedded over
the real numbers: float arithmetic becomes exact real arithmetic, the C
math library calls become the corresponding Mathlib functions (atan2f is
the complex argument), the float-to-int cast becomes truncation toward
zero, and the C integer division, which is undefined on a zero divisor,
is additionally embedded as an Option-valued division where that matters.
-/

open Real

noncomputable section

/-- Truncation toward zero: the semantics of the C cast from float to int. -/
def truncZ (r : ℝ) : ℤ := if 0 ≤ r then ⌊r⌋ else -⌊-r⌋

/-- Embedding of srgb (panorama.c lines 13-20), the sRGB encoding transfer
curve; powf becomes the real power function. -/
def srgb (v : ℝ) : ℝ :=
  let K0 : ℝ := 0.03928
  let a : ℝ := 0.055
  let phi : ℝ := 12.92
  let gamma : ℝ := 2.4
  if v ≤ K0 / phi then v * phi else (1 + a) * v ^ (1 / gamma) - a

/-- Embedding of linear (panorama.c lines 22-29), the sRGB decoding transfer
curve. -/
def linear (v : ℝ) : ℝ :=
  let K0 : ℝ := 0.03928
  let a : ℝ := 0.055
  let phi : ℝ := 12.92
  let gamma : ℝ := 2.4
  if v ≤ K0 then v / phi else ((v + a) / (1 + a)) ^ gamma

/-- Embedding of struct rgb (lines 31-33). -/
@[ext] structure rgb where
  r : ℝ
  g : ℝ
  b : ℝ

/-- Embedding of struct uv (lines 35-37). -/
@[ext] structure uv where
  u : ℝ
  v : ℝ

/-- Embedding of struct xyz (lines 39-41). -/
@[ext] structure xyz where
  x : ℝ
  y : ℝ
  z : ℝ

/-- Embedding of struct image (lines 43-47): the buffer is modelled as a
total function from the flat row-major index; entries outside the
allocated range stand for whatever memory an out-of-range C read would
touch.  The name and total fields are I/O bookkeeping and carry no
algorithmic content. -/
structure image where
  width : ℤ
  height : ℤ
  buffer : ℤ → rgb

/-- The C library atan2f(y, x): the argument of the complex number
x + y i, valued in (-pi, pi]. -/
def atan2 (y x : ℝ) : ℝ := Complex.arg ⟨x, y⟩

/-- Embedding of uv_sphere (lines 66-72). -/
def uv_sphere (v : xyz) : uv :=
  ⟨0.5 + atan2 v.z v.x / (2 * π), Real.arccos v.y / π⟩

/-- Embedding of xyz_sphere (lines 74-81). -/
def xyz_sphere (v : uv) : xyz :=
  ⟨Real.sin (v.v * π) * Real.cos ((v.u - 0.5) * 2 * π),
   Real.cos (v.v * π),
   Real.sin (v.v * π) * Real.sin ((v.u - 0.5) * 2 * π)⟩

/-- Embedding of xyz_smul (lines 83-86). -/
def xyz_smul (a : ℝ) (v : xyz) : xyz := ⟨a * v.x, a * v.y, a * v.z⟩

/-- Embedding of rgb_smul (lines 88-91). -/
def rgb_smul (a : ℝ) (v : rgb) : rgb := ⟨a * v.r, a * v.g, a * v.b⟩

/-- Embedding of uv_smul (lines 93-96). -/
def uv_smul (a : ℝ) (v : uv) : uv := ⟨a * v.u, a * v.v⟩

/-- Embedding of rgb_add (lines 98-101). -/
def rgb_add (a b : rgb) : rgb := ⟨a.r + b.r, a.g + b.g, a.b + b.b⟩

/-- Embedding of xyz_add (lines 103-106). -/
def xyz_add (a b : xyz) : xyz := ⟨a.x + b.x, a.y + b.y, a.z + b.z⟩

/-- Embedding of xyz_length (lines 108-111). -/
def xyz_length (v : xyz) : ℝ := Real.sqrt (v.x * v.x + v.y * v.y + v.z * v.z)

/-- Embedding of uv_length (lines 113-116). -/
def uv_length (v : uv) : ℝ := Real.sqrt (v.u * v.u + v.v * v.v)

/-- Embedding of xyz_normalize (lines 118-121). -/
def xyz_normalize (v : xyz) : xyz := xyz_smul (1 / xyz_length v) v

/-- Embedding of xyz_orthogonal (lines 123-130); fabsf is the real absolute
value. -/
def xyz_orthogonal (v : xyz) : xyz :=
  let ox : xyz := ⟨0, -v.z, v.y⟩
  let oy : xyz := ⟨v.z, 0, -v.x⟩
  let oz : xyz := ⟨-v.y, v.x, 0⟩
  let o : xyz :=
    if |v.x| < |v.y| then (if |v.x| < |v.z| then ox else oz)
    else (if |v.y| < |v.z| then oy else oz)
  xyz_normalize o

/-- Embedding of xyz_cross (lines 132-139). -/
def xyz_cross (a b : xyz) : xyz :=
  ⟨a.y * b.z - a.z * b.y, a.z * b.x - a.x * b.z, a.x * b.y - a.y * b.x⟩

/-- Embedding of gauss (lines 141-145); the C condition radius tests for a
nonzero value. -/
def gauss (x y radius : ℝ) : ℝ :=
  let sigma := radius / 3
  if radius = 0 then 1
  else Real.exp (-(x * x + y * y) / (2 * sigma * sigma)) / (2 * π * sigma * sigma)

/-- Line 153 of downsample: int radius = fmaxf(iw / ow, ih / oh) / 2.0f.
The inner divisions are truncating C integer divisions, the result is
converted to float, halved and cast back to int. -/
def downsampleRadius (iw ih ow oh : ℤ) : ℤ :=
  truncZ (((max (iw.tdiv ow) (ih.tdiv oh) : ℤ) : ℝ) / 2)

/-- C semantics of the integer division at line 153: undefined behaviour,
hence none, on a zero divisor. -/
def intDivOpt (a b : ℤ) : Option ℤ := if b = 0 then none else some (a.tdiv b)

/-- The radius computation of line 153 with its division-by-zero
fallibility made explicit; for nonzero output dimensions it agrees with
downsampleRadius. -/
def downsampleRadiusOpt (iw ih ow oh : ℤ) : Option ℤ :=
  (intDivOpt iw ow).bind fun q1 =>
    (intDivOpt ih oh).map fun q2 => truncZ (((max q1 q2 : ℤ) : ℝ) / 2)

/-- Line 154: float delta = 1.0f / fmaxf(iw / 2.0f, ih). -/
def downsampleDelta (iw ih : ℤ) : ℝ := 1 / max ((iw : ℝ) / 2) ((ih : ℝ))

/-- Line 161: fminf(8.0f, 1.0f / sinf(v * pi)).  In IEEE float arithmetic
1.0f / 0.0f is positive infinity and fminf(8, inf) = 8, which the real
embedding renders as a separate branch for a zero sine. -/
def stretch (v : ℝ) : ℝ :=
  if Real.sin (v * π) = 0 then 8 else min 8 (1 / Real.sin (v * π))

/-- Line 161: int weight = fminf(8.0f, 1.0f / sinf(pol.v * M_PI)) with
pol.v = oj / oh. -/
def downsampleWeight (oh oj : ℤ) : ℤ := truncZ (stretch ((oj : ℝ) / (oh : ℝ)))

/-- Lines 160, 164, 165: the sphere direction of output pixel (oi, oj). -/
def downsampleCenter (ow oh oi oj : ℤ) : xyz :=
  xyz_sphere ⟨(oi : ℝ) / (ow : ℝ), (oj : ℝ) / (oh : ℝ)⟩

/-- Line 166. -/
def downsampleOrth0 (ow oh oi oj : ℤ) : xyz :=
  xyz_orthogonal (downsampleCenter ow oh oi oj)

/-- Line 167. -/
def downsampleOrth1 (ow oh oi oj : ℤ) : xyz :=
  xyz_cross (downsampleOrth0 ow oh oi oj) (downsampleCenter ow oh oi oj)

/-- Lines 172-173: the displaced, renormalized sample direction. -/
def downsampleDir (iw ih ow oh oi oj ai aj : ℤ) : xyz :=
  xyz_normalize (xyz_add (downsampleCenter ow oh oi oj)
    (xyz_add (xyz_smul (downsampleDelta iw ih * (ai : ℝ)) (downsampleOrth0 ow oh oi oj))
             (xyz_smul (downsampleDelta iw ih * (aj : ℝ)) (downsampleOrth1 ow oh oi oj))))

/-- Line 173: struct uv ap. -/
def downsampleUV (iw ih ow oh oi oj ai aj : ℤ) : uv :=
  uv_sphere (downsampleDir iw ih ow oh oi oj ai aj)

/-- Line 174: int ii = iw * ap.u. -/
def downsampleII (iw ih ow oh oi oj ai aj : ℤ) : ℤ :=
  truncZ ((iw : ℝ) * (downsampleUV iw ih ow oh oi oj ai aj).u)

/-- Line 175: int ij = ih * ap.v. -/
def downsampleIJ (iw ih ow oh oi oj ai aj : ℤ) : ℤ :=
  truncZ ((ih : ℝ) * (downsampleUV iw ih ow oh oi oj ai aj).v)

/-- Row-major pixel access, the addressing expression buf[width * j + i]. -/
def pixelAt (ib : ℤ → rgb) (iwidth i j : ℤ) : rgb := ib (iwidth * j + i)

/-- Line 177: the source sample ib[iw * ij + ii] of one kernel tap. -/
def downsampleSample (ib : ℤ → rgb) (iw ih ow oh oi oj ai aj : ℤ) : rgb :=
  pixelAt ib iw (downsampleII iw ih ow oh oi oj ai aj)
    (downsampleIJ iw ih ow oh oi oj ai aj)

/-- Line 176: float kernel = gauss(ai, aj, radius * weight). -/
def downsampleKernel (iw ih ow oh oj ai aj : ℤ) : ℝ :=
  gauss (ai : ℝ) (aj : ℝ) ((downsampleRadius iw ih ow oh * downsampleWeight oh oj : ℤ) : ℝ)

/-- The inclusive range -e..e traversed by each of the two C for loops at
lines 170-171, in iteration order. -/
def iccList (e : ℤ) : List ℤ := (List.range (2 * e + 1).toNat).map fun n : ℕ => -e + (n : ℤ)

/-- Embedding of the accumulation loops of downsample (lines 168-181) for a
single output pixel: the running pair is (rgb_sum, kernel_sum) and the
final write is rgb_smul (1 / kernel_sum) rgb_sum. -/
def downsamplePixel (ib : ℤ → rgb) (iw ih ow oh oi oj : ℤ) : rgb :=
  let e := downsampleRadius iw ih ow oh * downsampleWeight oh oj
  let acc := (iccList e).foldl (fun acc0 aj =>
    (iccList e).foldl (fun acc1 ai =>
      (rgb_add acc1.1 (rgb_smul (downsampleKernel iw ih ow oh oj ai aj)
         (downsampleSample ib iw ih ow oh oi oj ai aj)),
       acc1.2 + downsampleKernel iw ih ow oh oj ai aj)) acc0)
    ((⟨0, 0, 0⟩ : rgb), (0 : ℝ))
  rgb_smul (1 / acc.2) acc.1

/-- Embedding of downsample (lines 147-184) as the final state of the
output buffer: index ow * oj + oi with 0 <= oi < ow, 0 <= oj < oh is
written exactly once with the pixel value, all other memory is untouched. -/
def downsample (output input : image) : image :=
  { width := output.width, height := output.height,
    buffer := fun k =>
      if 0 ≤ k ∧ k < output.width * output.height then
        downsamplePixel input.buffer input.width input.height output.width output.height
          (k % output.width) (k / output.width)
      else output.buffer k }

/-- Embedding of the orchestration in main (lines 290-301) after the input
image has been read: the dimension guard either fails with exit status 1
and no output container, or downsample runs on a fresh output image and
the exit status is 0.  The freshly malloc-ed output buffer content is
irrelevant and modelled as zero. -/
def mainRun (ow oh : ℤ) (input : image) : ℤ × Option image :=
  if input.width < ow ∨ input.height < oh then (1, none)
  else (0, some (downsample ⟨ow, oh, fun _ => ⟨0, 0, 0⟩⟩ input))

/-- Spec-side notion (section 4.1): the dot product, used to state
perpendicularity; the C source has no dot product function. -/
def dotXYZ (a b : xyz) : ℝ := a.x * b.x + a.y * b.y + a.z * b.z

/-- Modelled from the spec (section 4.1): among the three canonical
perpendicular constructions pick the one whose defining component of v is
smallest in absolute value, comparing the absolute values of x, y, z in
that order with ties broken toward the later comparison. -/
def specOrthoPick (v : xyz) : xyz :=
  if |v.z| ≤ |v.x| ∧ |v.z| ≤ |v.y| then ⟨-v.y, v.x, 0⟩
  else if |v.y| ≤ |v.x| then ⟨v.z, 0, -v.x⟩
  else ⟨0, -v.z, v.y⟩

instance : Zero rgb := ⟨⟨0, 0, 0⟩⟩

instance : Add rgb := ⟨rgb_add⟩

instance : AddCommMonoid rgb where
  add_assoc a b c := by
    show rgb_add (rgb_add a b) c = rgb_add a (rgb_add b c)
    simp only [rgb_add]
    refine rgb.ext ?_ ?_ ?_ <;> dsimp <;> ring
  zero_add a := by
    show rgb_add ⟨0, 0, 0⟩ a = a
    simp only [rgb_add]
    refine rgb.ext ?_ ?_ ?_ <;> dsimp <;> ring
  add_zero a := by
    show rgb_add a ⟨0, 0, 0⟩ = a
    simp only [rgb_add]
    refine rgb.ext ?_ ?_ ?_ <;> dsimp <;> ring
  add_comm a b := by
    show rgb_add a b = rgb_add b a
    simp only [rgb_add]
    refine rgb.ext ?_ ?_ ?_ <;> dsimp <;> ring
  nsmul := nsmulRec

/-- The per-pixel output value written as the spec states it: the
kernel-weighted sum of the sampled input pixels over the full offset
square, divided by the sum of the kernel weights, with the source pixel
indices obtained by flooring iw * u and ih * v. -/
def specGeodesicPixel (ib : ℤ → rgb) (iw ih ow oh oi oj : ℤ) : rgb :=
  let e := downsampleRadius iw ih ow oh * downsampleWeight oh oj
  rgb_smul
    (1 / ∑ aj ∈ Finset.Icc (-e) e, ∑ ai ∈ Finset.Icc (-e) e,
        gauss (ai : ℝ) (aj : ℝ) ((e : ℤ) : ℝ))
    (∑ aj ∈ Finset.Icc (-e) e, ∑ ai ∈ Finset.Icc (-e) e,
        rgb_smul (gauss (ai : ℝ) (aj : ℝ) ((e : ℤ) : ℝ))
          (pixelAt ib iw ⌊(iw : ℝ) * (downsampleUV iw ih ow oh oi oj ai aj).u⌋
                         ⌊(ih : ℝ) * (downsampleUV iw ih ow oh oi oj ai aj).v⌋))

/-! Helper lemmas connecting the loop accumulation to big-operator sums. -/

theorem rgb_add_def (a b : rgb) : rgb_add a b = a + b := rfl

theorem rgb_zero_def : (0 : rgb) = ⟨0, 0, 0⟩ := rfl

theorem foldl_pair_add {β : Type} (f : β → rgb) (g : β → ℝ) :
    ∀ (l : List β) (p : rgb × ℝ),
      l.foldl (fun acc x => (rgb_add acc.1 (f x), acc.2 + g x)) p
        = (rgb_add p.1 (l.map f).sum, p.2 + (l.map g).sum)
  | [], p => by
    simp [rgb_add_def]
  | x :: l, p => by
    simp only [List.foldl_cons, List.map_cons, List.sum_cons]
    rw [foldl_pair_add f g l]
    refine Prod.ext ?_ ?_
    · show rgb_add (rgb_add p.1 (f x)) _ = rgb_add p.1 (f x + (l.map f).sum)
      simp [rgb_add_def, add_assoc]
    · show p.2 + g x + (l.map g).sum = p.2 + (g x + (l.map g).sum)
      ring

theorem list_range_map_sum {M : Type} [AddCommMonoid M] (g : ℕ → M) :
    ∀ n : ℕ, ((List.range n).map g).sum = ∑ k ∈ Finset.range n, g k
  | 0 => by simp
  | n + 1 => by
    rw [List.range_succ, List.map_append, List.sum_append, Finset.sum_range_succ,
      list_range_map_sum g n]
    simp

theorem iccList_map_sum {M : Type} [AddCommMonoid M] (e : ℤ) (f : ℤ → M) :
    ((iccList e).map f).sum = ∑ x ∈ Finset.Icc (-e) e, f x := by
  rw [iccList, List.map_map, list_range_map_sum, Int.Icc_eq_finset_map, Finset.sum_map]
  refine Finset.sum_congr ?_ ?_
  · congr 1
    omega
  · intro k _
    simp [Function.comp, Function.Embedding.trans_apply, Nat.castEmbedding_apply,
      addLeftEmbedding_apply]

/-- The loop accumulation of downsamplePixel, rewritten as nested sums over
the inclusive offset intervals (still with the truncating index cast of the
source). -/
theorem downsamplePixel_eq_sums (ib : ℤ → rgb) (iw ih ow oh oi oj : ℤ) :
    downsamplePixel ib iw ih ow oh oi oj =
      rgb_smul
        (1 / ∑ aj ∈ Finset.Icc (-(downsampleRadius iw ih ow oh * downsampleWeight oh oj))
              (downsampleRadius iw ih ow oh * downsampleWeight oh oj),
            ∑ ai ∈ Finset.Icc (-(downsampleRadius iw ih ow oh * downsampleWeight oh oj))
              (downsampleRadius iw ih ow oh * downsampleWeight oh oj),
              downsampleKernel iw ih ow oh oj ai aj)
        (∑ aj ∈ Finset.Icc (-(downsampleRadius iw ih ow oh * downsampleWeight oh oj))
              (downsampleRadius iw ih ow oh * downsampleWeight oh oj),
            ∑ ai ∈ Finset.Icc (-(downsampleRadius iw ih ow oh * downsampleWeight oh oj))
              (downsampleRadius iw ih ow oh * downsampleWeight oh oj),
              rgb_smul (downsampleKernel iw ih ow oh oj ai aj)
                (downsampleSample ib iw ih ow oh oi oj ai aj)) := by
  rw [downsamplePixel]
  set e := downsampleRadius iw ih ow oh * downsampleWeight oh oj with he
  have hinner : ∀ (aj : ℤ) (p : rgb × ℝ),
      (iccList e).foldl (fun acc1 ai =>
        (rgb_add acc1.1 (rgb_smul (downsampleKernel iw ih ow oh oj ai aj)
           (downsampleSample ib iw ih ow oh oi oj ai aj)),
         acc1.2 + downsampleKernel iw ih ow oh oj ai aj)) p
        = (rgb_add p.1 ((iccList e).map (fun ai =>
              rgb_smul (downsampleKernel iw ih ow oh oj ai aj)
                (downsampleSample ib iw ih ow oh oi oj ai aj))).sum,
           p.2 + ((iccList e).map (fun ai => downsampleKernel iw ih ow oh oj ai aj)).sum) := by
    intro aj p
    exact foldl_pair_add _ _ _ _
  have houter :
      (iccList e).foldl (fun acc0 aj =>
        (iccList e).foldl (fun acc1 ai =>
          (rgb_add acc1.1 (rgb_smul (downsampleKernel iw ih ow oh oj ai aj)
             (downsampleSample ib iw ih ow oh oi oj ai aj)),
           acc1.2 + downsampleKernel iw ih ow oh oj ai aj)) acc0)
        ((⟨0, 0, 0⟩ : rgb), (0 : ℝ))
      = (rgb_add ⟨0, 0, 0⟩ ((iccList e).map (fun aj => ((iccList e).map (fun ai =>
            rgb_smul (downsampleKernel iw ih ow oh oj ai aj)
              (downsampleSample ib iw ih ow oh oi oj ai aj))).sum)).sum,
         (0 : ℝ) + ((iccList e).map (fun aj => ((iccList e).map (fun ai =>
            downsampleKernel iw ih ow oh oj ai aj)).sum)).sum) := by
    rw [List.foldl_ext _ _ _ (fun p aj _ => hinner aj p)]
    exact foldl_pair_add _ _ _ _
  rw [houter]
  have hz : rgb_add ⟨0, 0, 0⟩ = fun c => (0 : rgb) + c := by
    funext c
    rw [rgb_add_def]
    rfl
  simp only [hz, zero_add]
  congr 1
  · rw [iccList_map_sum]
    refine congrArg (fun t => 1 / t) ?_
    refine Finset.sum_congr rfl ?_
    intro aj _
    rw [iccList_map_sum]
  · rw [iccList_map_sum]
    refine Finset.sum_congr rfl ?_
    intro aj _
    rw [iccList_map_sum]

theorem truncZ_of_nonneg {r : ℝ} (h : 0 ≤ r) : truncZ r = ⌊r⌋ := by
  rw [truncZ, if_pos h]

theorem truncZ_nonneg {r : ℝ} (h : 0 ≤ r) : 0 ≤ truncZ r := by
  rw [truncZ_of_nonneg h]
  exact Int.floor_nonneg.mpr h

theorem gauss_pos (x y radius : ℝ) : 0 < gauss x y radius := by
  simp only [gauss]
  split_ifs with h
  · exact one_pos
  · apply div_pos (Real.exp_pos _)
    have hs : radius / 3 ≠ 0 := by
      intro hz
      exact h (by linarith [hz] )
    have h2 : 0 < (radius / 3) * (radius / 3) := mul_self_pos.mpr hs
    have h3 : (0 : ℝ) < 2 * π := by positivity
    nlinarith

theorem uv_sphere_u_nonneg (w : xyz) : 0 ≤ (uv_sphere w).u := by
  rw [uv_sphere]
  dsimp only
  have h1 : -π < Complex.arg ⟨w.x, w.z⟩ := Complex.neg_pi_lt_arg _
  have h2 : (0 : ℝ) < 2 * π := by positivity
  have h3 : -(1 / 2 : ℝ) ≤ atan2 w.z w.x / (2 * π) := by
    rw [atan2, le_div_iff₀ h2]
    nlinarith
  linarith

theorem uv_sphere_v_nonneg (w : xyz) : 0 ≤ (uv_sphere w).v := by
  rw [uv_sphere]
  dsimp only
  exact div_nonneg (Real.arccos_nonneg _) (le_of_lt Real.pi_pos)

theorem sum_rgb_smul_const {α : Type} (s : Finset α) (w : α → ℝ) (C : rgb) :
    ∑ i ∈ s, rgb_smul (w i) C = rgb_smul (∑ i ∈ s, w i) C := by
  induction s using Finset.cons_induction with
  | empty =>
    simp only [Finset.sum_empty]
    rw [rgb_zero_def]
    refine rgb.ext ?_ ?_ ?_ <;> simp [rgb_smul]
  | cons a s h ih =>
    rw [Finset.sum_cons, Finset.sum_cons, ih, ← rgb_add_def]
    refine rgb.ext ?_ ?_ ?_ <;> simp [rgb_smul, rgb_add] <;> ring

theorem rgb_smul_smul (a c : ℝ) (C : rgb) :
    rgb_smul a (rgb_smul c C) = rgb_smul (a * c) C := by
  refine rgb.ext ?_ ?_ ?_ <;> simp [rgb_smul] <;> ring

theorem rgb_smul_one (C : rgb) : rgb_smul 1 C = C := by
  refine rgb.ext ?_ ?_ ?_ <;> simp [rgb_smul]

/-- Claim C9: for every pair (x, y), gauss(x, y, 0) equals exactly 1, so
the kernel is well-defined on the zero-radius guard path and the division
by the squared sigma is never performed there. -/
theorem gauss_zero_radius (x y : ℝ) : gauss x y 0 = 1 := by
  rw [gauss]
  simp

/-- Claim C5: whenever the requested output dimensions exceed the input
image's dimensions in either axis, the run exits with a non-zero status
and writes no output container. -/
theorem mainRun_rejects_oversize (input : image) (ow oh : ℤ)
    (h : input.width < ow ∨ input.height < oh) :
    (mainRun ow oh input).1 ≠ 0 ∧ (mainRun ow oh input).2 = none := by
  rw [mainRun, if_pos h]
  exact ⟨one_ne_zero, rfl⟩

/-- Witness for claim C5 at a concrete instance: a 2 by 2 input with a
requested 3 by 1 output is rejected. -/
theorem mainRun_rejects_oversize_witness :
    ((⟨2, 2, fun _ => ⟨0, 0, 0⟩⟩ : image).width < 3 ∨
      (⟨2, 2, fun _ => ⟨0, 0, 0⟩⟩ : image).height < 1) ∧
    (mainRun 3 1 ⟨2, 2, fun _ => ⟨0, 0, 0⟩⟩).1 ≠ 0 ∧
    (mainRun 3 1 ⟨2, 2, fun _ => ⟨0, 0, 0⟩⟩).2 = none :=
  ⟨Or.inl (by norm_num),
   mainRun_rejects_oversize ⟨2, 2, fun _ => ⟨0, 0, 0⟩⟩ 3 1 (Or.inl (by norm_num))⟩

/-- Claim C10: a requested output width or height of zero passes the size
validation of main, which only rejects when an input dimension is
strictly below the corresponding output dimension, and the radius
computation of downsample then performs a C integer division with a zero
divisor, which downsampleRadiusOpt records as undefined.  No other guard
in the program excludes zero output dimensions. -/
theorem zero_output_dims_reach_division_by_zero (iw ih ow oh : ℤ) (ib : ℤ → rgb)
    (hz : ow = 0 ∨ oh = 0) (hw : ow ≤ iw) (hh : oh ≤ ih) :
    (mainRun ow oh ⟨iw, ih, ib⟩).1 = 0 ∧ downsampleRadiusOpt iw ih ow oh = none := by
  constructor
  · rw [mainRun, if_neg]
    push_neg
    dsimp only
    exact ⟨by omega, by omega⟩
  · rcases hz with h | h
    · rw [downsampleRadiusOpt, intDivOpt, if_pos h, Option.none_bind]
    · rw [downsampleRadiusOpt]
      rcases em (ow = 0) with h0 | h0
      · rw [intDivOpt, if_pos h0, Option.none_bind]
      · rw [intDivOpt, if_neg h0, Option.some_bind]
        rw [intDivOpt, if_pos h, Option.map_none']

/-- Witness for claim C10 at a concrete instance: a 4 by 4 input with a
requested 0 by 2 output passes the guard and the radius computation
divides by zero. -/
theorem zero_output_dims_reach_division_by_zero_witness :
    ((0 : ℤ) = 0 ∨ (2 : ℤ) = 0) ∧ (0 : ℤ) ≤ 4 ∧ (2 : ℤ) ≤ 4 ∧
    (mainRun 0 2 ⟨4, 4, fun _ => ⟨0, 0, 0⟩⟩).1 = 0 ∧
    downsampleRadiusOpt 4 4 0 2 = none :=
  ⟨Or.inl rfl, by norm_num, by norm_num,
   zero_output_dims_reach_division_by_zero 4 4 0 2 (fun _ => ⟨0, 0, 0⟩)
     (Or.inl rfl) (by norm_num) (by norm_num)⟩

/-- For byte values up to 10 the linear-branch thresholds of both transfer
functions are taken and the round trip is exact. -/
theorem srgb_linear_byte_low (c : ℕ) (h10 : c ≤ 10) :
    srgb (linear ((c : ℝ) / 255)) = (c : ℝ) / 255 := by
  have hcr : (c : ℝ) ≤ 10 := by exact_mod_cast h10
  have hcnn : (0 : ℝ) ≤ (c : ℝ) := Nat.cast_nonneg c
  have hcond : (c : ℝ) / 255 ≤ 0.03928 := by
    rw [div_le_iff₀ (by norm_num : (0 : ℝ) < 255)]
    nlinarith
  have hlin : linear ((c : ℝ) / 255) = ((c : ℝ) / 255) / 12.92 := by
    simp only [linear]
    rw [if_pos hcond]
  rw [hlin]
  simp only [srgb]
  rw [if_pos (by gcongr : ((c : ℝ) / 255) / 12.92 ≤ 0.03928 / 12.92)]
  field_simp
  ring

/-- For byte values from 11 up the power branches of both transfer
functions are taken and the round trip is exact; the branch condition in
srgb holds because the decoded value stays above the srgb threshold for
every such byte. -/
theorem srgb_linear_byte_high (c : ℕ) (h11 : 11 ≤ c) :
    srgb (linear ((c : ℝ) / 255)) = (c : ℝ) / 255 := by
  have hcr : (11 : ℝ) ≤ (c : ℝ) := by exact_mod_cast h11
  have hgt : ¬((c : ℝ) / 255 ≤ 0.03928) := by
    push_neg
    rw [lt_div_iff₀ (by norm_num : (0 : ℝ) < 255)]
    nlinarith
  have hlin : linear ((c : ℝ) / 255) =
      (((c : ℝ) / 255 + 0.055) / (1 + 0.055)) ^ (1 / (2.4 : ℝ))⁻¹ := by
    simp only [linear]
    rw [if_neg hgt]
    norm_num
  have hbpos : (0 : ℝ) < ((c : ℝ) / 255 + 0.055) / (1 + 0.055) := by positivity
  have hbge : (1001 / 10761 : ℝ) ≤ ((c : ℝ) / 255 + 0.055) / (1 + 0.055) := by
    rw [div_le_div_iff₀ (by norm_num) (by norm_num)]
    nlinarith
  have hkey : (0.03928 / 12.92 : ℝ) <
      (((c : ℝ) / 255 + 0.055) / (1 + 0.055)) ^ (2.4 : ℝ) := by
    have h1 : ((1001 / 10761 : ℝ)) ^ (2.4 : ℝ) ≤
        (((c : ℝ) / 255 + 0.055) / (1 + 0.055)) ^ (2.4 : ℝ) :=
      Real.rpow_le_rpow (by norm_num) hbge (by norm_num)
    have h2 : (0.03928 / 12.92 : ℝ) < (1001 / 10761 : ℝ) ^ (2.4 : ℝ) := by
      by_contra hcon
      push_neg at hcon
      have t5 : ((1001 / 10761 : ℝ) ^ (2.4 : ℝ)) ^ (5 : ℕ) ≤
          (0.03928 / 12.92 : ℝ) ^ (5 : ℕ) :=
        pow_le_pow_left₀ (Real.rpow_nonneg (by norm_num) _) hcon 5
      have hrw : ((1001 / 10761 : ℝ) ^ (2.4 : ℝ)) ^ (5 : ℕ) =
          (1001 / 10761 : ℝ) ^ (12 : ℕ) := by
        rw [← Real.rpow_natCast ((1001 / 10761 : ℝ) ^ (2.4 : ℝ)) 5,
          ← Real.rpow_mul (by norm_num), ← Real.rpow_natCast (1001 / 10761 : ℝ) 12]
        norm_num
      rw [hrw] at t5
      norm_num at t5
    exact lt_of_lt_of_le h2 h1
  have hexp : ((1 : ℝ) / (2.4 : ℝ))⁻¹ = (2.4 : ℝ) := by norm_num
  rw [hlin, hexp]
  simp only [srgb]
  rw [if_neg (by push_neg; exact hkey)]
  have hpow : ((((c : ℝ) / 255 + 0.055) / (1 + 0.055)) ^ (2.4 : ℝ)) ^ (1 / (2.4 : ℝ)) =
      ((c : ℝ) / 255 + 0.055) / (1 + 0.055) := by
    rw [← Real.rpow_mul hbpos.le]
    norm_num
  rw [hpow]
  field_simp
  ring

/-- Claim C7: for every byte c in 0..255, rounding 255 times the srgb
encoding of the linear decoding of c / 255 reproduces c within plus or
minus one; over the reals the round trip is in fact exact for every byte. -/
theorem srgb_linear_roundtrip_byte (c : ℕ) (hc : c ≤ 255) :
    |(round ((255 : ℝ) * srgb (linear ((c : ℝ) / 255))) : ℤ) - (c : ℤ)| ≤ 1 := by
  have hid : srgb (linear ((c : ℝ) / 255)) = (c : ℝ) / 255 := by
    rcases le_or_lt c 10 with h10 | h11
    · exact srgb_linear_byte_low c h10
    · exact srgb_linear_byte_high c h11
  rw [hid]
  have h255 : (255 : ℝ) * ((c : ℝ) / 255) = ((c : ℤ) : ℝ) := by
    push_cast
    field_simp
  rw [h255, round_intCast]
  simp

/-- Witness for claim C7 at the concrete byte 128. -/
theorem srgb_linear_roundtrip_byte_witness :
    (128 : ℕ) ≤ 255 ∧
    |(round ((255 : ℝ) * srgb (linear ((128 : ℕ) / 255 : ℝ))) : ℤ) - ((128 : ℕ) : ℤ)| ≤ 1 :=
  ⟨by norm_num, srgb_linear_roundtrip_byte 128 (by norm_num)⟩

/-- The nested conditional of xyz_orthogonal picks exactly the
construction described by the spec's smallest-component rule. -/
theorem specOrthoPick_cases (v : xyz) :
    (if |v.x| < |v.y| then
       (if |v.x| < |v.z| then (⟨0, -v.z, v.y⟩ : xyz) else ⟨-v.y, v.x, 0⟩)
     else (if |v.y| < |v.z| then ⟨v.z, 0, -v.x⟩ else ⟨-v.y, v.x, 0⟩)) = specOrthoPick v := by
  rw [specOrthoPick]
  by_cases h1 : |v.x| < |v.y|
  · by_cases h2 : |v.x| < |v.z|
    · rw [if_pos h1, if_pos h2, if_neg (by rintro ⟨ha, _⟩; linarith),
        if_neg (by intro hs2; linarith)]
    · rw [if_pos h1, if_neg h2,
        if_pos ⟨not_lt.mp h2, by linarith [not_lt.mp h2]⟩]
  · by_cases h3 : |v.y| < |v.z|
    · rw [if_neg h1, if_pos h3, if_neg (by rintro ⟨_, hb⟩; linarith),
        if_pos (not_lt.mp h1)]
    · rw [if_neg h1, if_neg h3,
        if_pos ⟨by linarith [not_lt.mp h1, not_lt.mp h3], not_lt.mp h3⟩]

theorem xyz_orthogonal_eq_normalize_spec (v : xyz) :
    xyz_orthogonal v = xyz_normalize (specOrthoPick v) := by
  simp only [xyz_orthogonal]
  rw [specOrthoPick_cases]

/-- Whenever v is not the zero vector, the construction picked by the
smallest-component rule has positive squared length: it omits only the
smallest component, and some retained component is nonzero. -/
theorem specOrthoPick_sq_pos {v : xyz} (hv : v ≠ ⟨0, 0, 0⟩) :
    0 < (specOrthoPick v).x * (specOrthoPick v).x +
        (specOrthoPick v).y * (specOrthoPick v).y +
        (specOrthoPick v).z * (specOrthoPick v).z := by
  have hcomp : ¬(v.x = 0 ∧ v.y = 0 ∧ v.z = 0) := by
    intro h
    apply hv
    cases v
    simp_all
  rw [specOrthoPick]
  split_ifs with h1 h2
  · dsimp only
    rcases eq_or_ne v.x 0 with hx | hx
    · rcases eq_or_ne v.y 0 with hy | hy
      · exfalso
        apply hcomp
        refine ⟨hx, hy, ?_⟩
        have hz := h1.1
        rw [hx] at hz
        simpa [abs_nonpos_iff] using hz
      · have hy2 : 0 < v.y * v.y := mul_self_pos.mpr hy
        nlinarith [mul_self_nonneg v.x]
    · have hx2 : 0 < v.x * v.x := mul_self_pos.mpr hx
      nlinarith [mul_self_nonneg v.y]
  · dsimp only
    rcases eq_or_ne v.x 0 with hx | hx
    · rcases eq_or_ne v.z 0 with hz | hz
      · exfalso
        apply hcomp
        refine ⟨hx, ?_, hz⟩
        rw [hx] at h2
        simpa [abs_nonpos_iff] using h2
      · have hz2 : 0 < v.z * v.z := mul_self_pos.mpr hz
        nlinarith [mul_self_nonneg v.x]
    · have hx2 : 0 < v.x * v.x := mul_self_pos.mpr hx
      nlinarith [mul_self_nonneg v.z]
  · dsimp only
    have hy : v.y ≠ 0 := by
      intro hy0
      rw [not_le, hy0, abs_zero] at h2
      exact absurd h2 (not_lt.mpr (abs_nonneg v.x))
    have hy2 : 0 < v.y * v.y := mul_self_pos.mpr hy
    nlinarith [mul_self_nonneg v.z]

theorem xyz_length_normalize {w : xyz}
    (h : 0 < w.x * w.x + w.y * w.y + w.z * w.z) :
    xyz_length (xyz_normalize w) = 1 := by
  have hL : 0 < xyz_length w := Real.sqrt_pos.mpr h
  have hsq : xyz_length w * xyz_length w = w.x * w.x + w.y * w.y + w.z * w.z :=
    Real.mul_self_sqrt h.le
  rw [xyz_normalize, xyz_smul]
  rw [xyz_length]
  dsimp only
  rw [Real.sqrt_eq_one]
  have hexpand : 1 / xyz_length w * w.x * (1 / xyz_length w * w.x) +
      1 / xyz_length w * w.y * (1 / xyz_length w * w.y) +
      1 / xyz_length w * w.z * (1 / xyz_length w * w.z)
      = (w.x * w.x + w.y * w.y + w.z * w.z) / (xyz_length w * xyz_length w) := by
    field_simp
  rw [hexpand, ← hsq, div_self (mul_pos hL hL).ne']

theorem dotXYZ_normalize (w v : xyz) :
    dotXYZ (xyz_normalize w) v = (1 / xyz_length w) * dotXYZ w v := by
  simp only [xyz_normalize, xyz_smul, dotXYZ]
  ring

theorem dotXYZ_specOrthoPick (v : xyz) : dotXYZ (specOrthoPick v) v = 0 := by
  rw [specOrthoPick]
  split_ifs <;> simp [dotXYZ] <;> ring

/-- Claim C8: for every nonzero vector, xyz_orthogonal returns a unit
vector perpendicular to it, and it is the normalization of the canonical
perpendicular construction whose defining component of v is smallest in
absolute value, comparing x, y, z in that order with ties broken toward
the later comparison. -/
theorem xyz_orthogonal_unit_perp (v : xyz) (hv : v ≠ ⟨0, 0, 0⟩) :
    dotXYZ (xyz_orthogonal v) v = 0 ∧ xyz_length (xyz_orthogonal v) = 1 ∧
    xyz_orthogonal v = xyz_normalize (specOrthoPick v) := by
  have hsel := xyz_orthogonal_eq_normalize_spec v
  have hpos := specOrthoPick_sq_pos hv
  refine ⟨?_, ?_, hsel⟩
  · rw [hsel, dotXYZ_normalize, dotXYZ_specOrthoPick, mul_zero]
  · rw [hsel]
    exact xyz_length_normalize hpos

/-- Witness for claim C8 at the concrete nonzero vector (1, 2, 3). -/
theorem xyz_orthogonal_unit_perp_witness :
    (⟨1, 2, 3⟩ : xyz) ≠ ⟨0, 0, 0⟩ ∧
    (dotXYZ (xyz_orthogonal ⟨1, 2, 3⟩) ⟨1, 2, 3⟩ = 0 ∧
     xyz_length (xyz_orthogonal ⟨1, 2, 3⟩) = 1 ∧
     xyz_orthogonal ⟨1, 2, 3⟩ = xyz_normalize (specOrthoPick ⟨1, 2, 3⟩)) :=
  ⟨by simp, xyz_orthogonal_unit_perp ⟨1, 2, 3⟩ (by simp)⟩

/-- Claim C3 as amended: away from the seam and the poles, that is for
u and v strictly inside (0, 1), applying xyz_sphere and then uv_sphere
returns exactly (u, v) in real arithmetic, with the 0.5 phase offset
subtracted before and added after the angle. -/
theorem uv_sphere_xyz_sphere_roundtrip (u v : ℝ)
    (hu0 : 0 < u) (hu1 : u < 1) (hv0 : 0 < v) (hv1 : v < 1) :
    uv_sphere (xyz_sphere ⟨u, v⟩) = ⟨u, v⟩ := by
  have hpi := Real.pi_pos
  have hs : 0 < Real.sin (v * π) :=
    Real.sin_pos_of_pos_of_lt_pi (mul_pos hv0 hpi) (by nlinarith)
  have hmem : (u - 0.5) * 2 * π ∈ Set.Ioc (-π) π := by
    constructor
    · nlinarith
    · nlinarith
  have hc : (⟨Real.sin (v * π) * Real.cos ((u - 0.5) * 2 * π),
             Real.sin (v * π) * Real.sin ((u - 0.5) * 2 * π)⟩ : ℂ)
      = (Real.sin (v * π) : ℂ) *
        (Complex.cos (((u - 0.5) * 2 * π : ℝ) : ℂ) +
         Complex.sin (((u - 0.5) * 2 * π : ℝ) : ℂ) * Complex.I) := by
    rw [Complex.mk_eq_add_mul_I, ← Complex.ofReal_cos, ← Complex.ofReal_sin]
    push_cast
    ring
  rw [xyz_sphere, uv_sphere]
  dsimp only
  refine uv.ext ?_ ?_
  · dsimp only
    rw [atan2, hc, Complex.arg_mul_cos_add_sin_mul_I hs hmem]
    field_simp
    ring
  · dsimp only
    rw [Real.arccos_cos (mul_nonneg hv0.le hpi.le) (by nlinarith)]
    field_simp

/-- Witness for the amended claim C3 at the interior point (1/2, 1/2). -/
theorem uv_sphere_xyz_sphere_roundtrip_witness :
    (0 : ℝ) < 1 / 2 ∧ (1 / 2 : ℝ) < 1 ∧
    uv_sphere (xyz_sphere ⟨1 / 2, 1 / 2⟩) = ⟨1 / 2, 1 / 2⟩ :=
  ⟨by norm_num, by norm_num,
   uv_sphere_xyz_sphere_roundtrip (1 / 2) (1 / 2) (by norm_num) (by norm_num)
     (by norm_num) (by norm_num)⟩

/-- Counterexample to claim C3 as stated: at the pole v = 0 with u = 1/4,
a point of the claimed domain u in [0,1), v in [0,1], the round trip
returns longitude 1/2 instead of 1/4, because the pole direction (0,1,0)
erases the longitude and atan2(0, 0) is 0.  (The seam u = 0 likewise
fails for interior v: the returned longitude is 1.) -/
theorem uv_sphere_xyz_sphere_pole_counterexample :
    uv_sphere (xyz_sphere ⟨1 / 4, 0⟩) ≠ ⟨1 / 4, 0⟩ := by
  have h1 : xyz_sphere ⟨1 / 4, 0⟩ = ⟨0, 1, 0⟩ := by
    rw [xyz_sphere]
    refine xyz.ext ?_ ?_ ?_ <;> dsimp only <;> simp
  have h2 : uv_sphere ⟨0, 1, 0⟩ = ⟨1 / 2, 0⟩ := by
    rw [uv_sphere, atan2]
    refine uv.ext ?_ ?_ <;> dsimp only
    · have hz : (⟨0, 0⟩ : ℂ) = 0 := rfl
      rw [hz, Complex.arg_zero]
      norm_num
    · rw [Real.arccos_one]
      simp
  rw [h1, h2]
  intro hcon
  have hu := congrArg uv.u hcon
  dsimp only at hu
  norm_num at hu

theorem downsampleCenter_concrete : downsampleCenter 2 2 0 1 = ⟨-1, 0, 0⟩ := by
  rw [downsampleCenter]
  have hu : ((0 : ℤ) : ℝ) / ((2 : ℤ) : ℝ) = 0 := by norm_num
  have hv : ((1 : ℤ) : ℝ) / ((2 : ℤ) : ℝ) = 1 / 2 := by norm_num
  rw [hu, hv, xyz_sphere]
  refine xyz.ext ?_ ?_ ?_ <;> dsimp only
  · rw [show ((0 : ℝ) - 0.5) * 2 * π = -π by ring, show (1 / 2 : ℝ) * π = π / 2 by ring]
    rw [Real.cos_neg, Real.cos_pi, Real.sin_pi_div_two]
    norm_num
  · rw [show (1 / 2 : ℝ) * π = π / 2 by ring, Real.cos_pi_div_two]
  · rw [show ((0 : ℝ) - 0.5) * 2 * π = -π by ring, show (1 / 2 : ℝ) * π = π / 2 by ring]
    rw [Real.sin_neg, Real.sin_pi, Real.sin_pi_div_two]
    norm_num

theorem xyz_normalize_neg_e1 : xyz_normalize ⟨-1, 0, 0⟩ = ⟨-1, 0, 0⟩ := by
  rw [xyz_normalize, xyz_length]
  dsimp only
  rw [show (-1 : ℝ) * -1 + 0 * 0 + 0 * 0 = 1 by ring, Real.sqrt_one]
  rw [xyz_smul]
  refine xyz.ext ?_ ?_ ?_ <;> dsimp only <;> norm_num

theorem downsampleOrth0_concrete : downsampleOrth0 2 2 0 1 = ⟨0, -1, 0⟩ := by
  rw [downsampleOrth0, downsampleCenter_concrete]
  simp only [xyz_orthogonal]
  rw [if_neg (by simp), if_neg (by simp)]
  rw [xyz_normalize, xyz_length]
  dsimp only
  rw [show (-(0 : ℝ)) * -0 + -1 * -1 + 0 * 0 = 1 by ring, Real.sqrt_one]
  rw [xyz_smul]
  refine xyz.ext ?_ ?_ ?_ <;> dsimp only <;> norm_num

theorem downsampleOrth1_concrete : downsampleOrth1 2 2 0 1 = ⟨0, 0, -1⟩ := by
  rw [downsampleOrth1, downsampleOrth0_concrete, downsampleCenter_concrete, xyz_cross]
  refine xyz.ext ?_ ?_ ?_ <;> dsimp only <;> norm_num

theorem downsampleDir_concrete : downsampleDir 4 4 2 2 0 1 0 0 = ⟨-1, 0, 0⟩ := by
  rw [downsampleDir, downsampleOrth0_concrete, downsampleOrth1_concrete,
    downsampleCenter_concrete]
  rw [show downsampleDelta 4 4 * ((0 : ℤ) : ℝ) = 0 by norm_num]
  rw [xyz_smul, xyz_smul, xyz_add, xyz_add]
  dsimp only
  rw [show (⟨-1 + (0 * 0 + 0 * 0), 0 + (0 * -1 + 0 * 0), 0 + (0 * 0 + 0 * -1)⟩ : xyz)
      = ⟨-1, 0, 0⟩ by refine xyz.ext ?_ ?_ ?_ <;> norm_num]
  exact xyz_normalize_neg_e1

theorem downsampleUV_concrete : downsampleUV 4 4 2 2 0 1 0 0 = ⟨1, 1 / 2⟩ := by
  rw [downsampleUV, downsampleDir_concrete, uv_sphere, atan2]
  have hm1 : (⟨-1, 0⟩ : ℂ) = -1 := by
    apply Complex.ext <;> simp
  refine uv.ext ?_ ?_ <;> dsimp only
  · rw [hm1, Complex.arg_neg_one]
    have hpi := Real.pi_pos
    field_simp
    ring
  · rw [Real.arccos_zero]
    have hpi := Real.pi_pos
    field_simp
    ring

/-- Claim C4: for the dimensionally valid request of downsampling a 4 by 4
input to 2 by 2, the geodesic strategy computes a horizontal source index
outside the valid range 0..3: at output pixel (0, 1) the center tap
(ai = aj = 0) projects to texture coordinate u = 1 and the code computes
ii = 4, with no modulo wrap or clamp before the buffer read. -/
theorem geodesic_source_index_out_of_range :
    ((0 : ℤ) < 2 ∧ (2 : ℤ) ≤ 4) ∧
    downsampleII 4 4 2 2 0 1 0 0 = 4 ∧ ¬(downsampleII 4 4 2 2 0 1 0 0 < 4) := by
  have hII : downsampleII 4 4 2 2 0 1 0 0 = 4 := by
    rw [downsampleII, downsampleUV_concrete]
    dsimp only
    rw [show ((4 : ℤ) : ℝ) * 1 = 4 by norm_num]
    rw [truncZ_of_nonneg (by norm_num)]
    exact_mod_cast Int.floor_intCast (α := ℝ) 4
  exact ⟨⟨by norm_num, by norm_num⟩, hII, by rw [hII]; omega⟩

theorem floor_intCast_div_pos (a b : ℤ) (hb : 0 < b) :
    ⌊(a : ℝ) / (b : ℝ)⌋ = a / b := by
  have hbR : (0 : ℝ) < (b : ℝ) := by exact_mod_cast hb
  have h1 : (0 : ℝ) ≤ ((a % b : ℤ) : ℝ) := by exact_mod_cast Int.emod_nonneg a hb.ne'
  have h2 : ((a % b : ℤ) : ℝ) < (b : ℝ) := by exact_mod_cast Int.emod_lt_of_pos a hb
  have h3 : (b : ℝ) * ((a / b : ℤ) : ℝ) + ((a % b : ℤ) : ℝ) = (a : ℝ) := by
    exact_mod_cast Int.ediv_add_emod a b
  rw [Int.floor_eq_iff]
  constructor
  · rw [le_div_iff₀ hbR]
    nlinarith
  · rw [div_lt_iff₀ hbR]
    nlinarith

theorem floor_div_two (x : ℝ) : ⌊x / 2⌋ = ⌊x⌋ / 2 := by
  have h1 : (0 : ℝ) ≤ ((⌊x⌋ % 2 : ℤ) : ℝ) := by
    exact_mod_cast Int.emod_nonneg ⌊x⌋ (by norm_num : (2 : ℤ) ≠ 0)
  have h2 : ((⌊x⌋ % 2 : ℤ) : ℝ) < 2 := by
    exact_mod_cast Int.emod_lt_of_pos ⌊x⌋ (by norm_num : (0 : ℤ) < 2)
  have h3 : 2 * ((⌊x⌋ / 2 : ℤ) : ℝ) + ((⌊x⌋ % 2 : ℤ) : ℝ) = (⌊x⌋ : ℝ) := by
    exact_mod_cast Int.ediv_add_emod ⌊x⌋ 2
  have h4 : ((⌊x⌋ % 2 : ℤ) : ℝ) ≤ 1 := by
    exact_mod_cast (by omega : ⌊x⌋ % 2 ≤ 1)
  have hfl : (⌊x⌋ : ℝ) ≤ x := Int.floor_le x
  have hfu : x < (⌊x⌋ : ℝ) + 1 := Int.lt_floor_add_one x
  rw [Int.floor_eq_iff]
  constructor
  · rw [le_div_iff₀ (by norm_num : (0 : ℝ) < 2)]
    nlinarith
  · rw [div_lt_iff₀ (by norm_num : (0 : ℝ) < 2)]
    nlinarith

theorem floor_max_comm (x y : ℝ) : ⌊max x y⌋ = max ⌊x⌋ ⌊y⌋ := by
  rcases le_total x y with h | h
  · rw [max_eq_right h, max_eq_right (Int.floor_mono h)]
  · rw [max_eq_left h, max_eq_left (Int.floor_mono h)]

/-- The base radius of the geodesic strategy equals the floor of half the
larger of the two real axis downscale ratios: the nested truncating
integer divisions of the source compute exactly that. -/
theorem downsampleRadius_eq (iw ih ow oh : ℤ) (hiw : 0 ≤ iw) (hih : 0 ≤ ih)
    (how : 0 < ow) (hoh : 0 < oh) :
    downsampleRadius iw ih ow oh =
      ⌊max ((iw : ℝ) / (ow : ℝ)) ((ih : ℝ) / (oh : ℝ)) / 2⌋ := by
  rw [downsampleRadius, Int.tdiv_eq_ediv hiw how.le, Int.tdiv_eq_ediv hih hoh.le]
  have hmx : (0 : ℤ) ≤ max (iw / ow) (ih / oh) :=
    le_trans (Int.ediv_nonneg hiw how.le) (le_max_left _ _)
  have hmxR : (0 : ℝ) ≤ ((max (iw / ow) (ih / oh) : ℤ) : ℝ) := by exact_mod_cast hmx
  rw [truncZ_of_nonneg (by linarith : (0 : ℝ) ≤ ((max (iw / ow) (ih / oh) : ℤ) : ℝ) / 2)]
  rw [floor_div_two, Int.floor_intCast]
  rw [floor_div_two, floor_max_comm, floor_intCast_div_pos iw ow how,
    floor_intCast_div_pos ih oh hoh]

theorem stretch_nonneg {v : ℝ} (hv0 : 0 ≤ v) (hv1 : v < 1) : 0 ≤ stretch v := by
  rw [stretch]
  split_ifs with h
  · norm_num
  · have hpi := Real.pi_pos
    have hs : 0 ≤ Real.sin (v * π) :=
      Real.sin_nonneg_of_nonneg_of_le_pi (mul_nonneg hv0 hpi.le) (by nlinarith)
    have hspos : 0 < Real.sin (v * π) := lt_of_le_of_ne hs (Ne.symm h)
    exact le_min (by norm_num) (by positivity)

/-- The per-row weight factor of the geodesic strategy is the stretch
factor truncated to an integer. -/
theorem downsampleWeight_eq (oh oj : ℤ) (hoj0 : 0 ≤ oj) (hoj1 : oj < oh) :
    downsampleWeight oh oj = ⌊stretch ((oj : ℝ) / (oh : ℝ))⌋ := by
  have hoh : (0 : ℤ) < oh := by omega
  have hv0 : (0 : ℝ) ≤ (oj : ℝ) / (oh : ℝ) :=
    div_nonneg (by exact_mod_cast hoj0) (by exact_mod_cast hoh.le)
  have hv1 : (oj : ℝ) / (oh : ℝ) < 1 := by
    rw [div_lt_one (by exact_mod_cast hoh)]
    exact_mod_cast hoj1
  rw [downsampleWeight, truncZ_of_nonneg (stretch_nonneg hv0 hv1)]

theorem iccList_toFinset (e : ℤ) : (iccList e).toFinset = Finset.Icc (-e) e := by
  ext x
  simp only [iccList, List.mem_toFinset, List.mem_map, List.mem_range, Finset.mem_Icc]
  constructor
  · rintro ⟨k, hk, rfl⟩
    omega
  · intro hx
    exact ⟨(x + e).toNat, by omega, by omega⟩

/-- Claim C2 as amended: the half-extent used by the inner loops is the
base radius times the stretch factor truncated to an integer before the
multiplication (not the rounding of the real product); the radius is the
floor of half the larger real downscale ratio, is shared by all output
pixels, and the traversed offsets are exactly the inclusive square. -/
theorem geodesic_extent_characterization (iw ih ow oh oj : ℤ)
    (hiw : 0 ≤ iw) (hih : 0 ≤ ih) (how : 0 < ow) (hoh : 0 < oh)
    (hoj0 : 0 ≤ oj) (hoj1 : oj < oh) :
    downsampleRadius iw ih ow oh =
      ⌊max ((iw : ℝ) / (ow : ℝ)) ((ih : ℝ) / (oh : ℝ)) / 2⌋ ∧
    downsampleWeight oh oj = ⌊stretch ((oj : ℝ) / (oh : ℝ))⌋ ∧
    (iccList (downsampleRadius iw ih ow oh * downsampleWeight oh oj)).toFinset =
      Finset.Icc (-(downsampleRadius iw ih ow oh * downsampleWeight oh oj))
        (downsampleRadius iw ih ow oh * downsampleWeight oh oj) :=
  ⟨downsampleRadius_eq iw ih ow oh hiw hih how hoh,
   downsampleWeight_eq oh oj hoj0 hoj1,
   iccList_toFinset _⟩

/-- Witness for the amended claim C2 at the concrete request of
downsampling a 4 by 4 input to 2 by 2, at output row 1. -/
theorem geodesic_extent_characterization_witness :
    ((0 : ℤ) ≤ 4 ∧ (0 : ℤ) < 2 ∧ (0 : ℤ) ≤ 1 ∧ (1 : ℤ) < 2) ∧
    (downsampleRadius 4 4 2 2 =
      ⌊max ((4 : ℤ) / (2 : ℤ) : ℝ) ((4 : ℤ) / (2 : ℤ) : ℝ) / 2⌋ ∧
     downsampleWeight 2 1 = ⌊stretch (((1 : ℤ) : ℝ) / ((2 : ℤ) : ℝ))⌋ ∧
     (iccList (downsampleRadius 4 4 2 2 * downsampleWeight 2 1)).toFinset =
       Finset.Icc (-(downsampleRadius 4 4 2 2 * downsampleWeight 2 1))
         (downsampleRadius 4 4 2 2 * downsampleWeight 2 1)) := by
  constructor
  · norm_num
  · have h := geodesic_extent_characterization 4 4 2 2 1 (by norm_num) (by norm_num)
      (by norm_num) (by norm_num) (by norm_num) (by norm_num)
    push_cast at h ⊢
    exact h

theorem stretch_one_third : stretch ((1 : ℝ) / 3) = 2 / Real.sqrt 3 := by
  have hs3 : (0 : ℝ) < Real.sqrt 3 := Real.sqrt_pos.mpr (by norm_num)
  have hsin : Real.sin ((1 : ℝ) / 3 * π) = Real.sqrt 3 / 2 := by
    rw [show (1 : ℝ) / 3 * π = π / 3 by ring]
    exact Real.sin_pi_div_three
  rw [stretch, hsin, if_neg (by positivity)]
  have hinv : 1 / (Real.sqrt 3 / 2) = 2 / Real.sqrt 3 := by
    field_simp
  have h1 : (1 : ℝ) < Real.sqrt 3 :=
    (Real.lt_sqrt (by norm_num)).mpr (by norm_num : (1 : ℝ) ^ 2 < 3)
  rw [hinv, min_eq_right]
  rw [div_le_iff₀ hs3]
  nlinarith

theorem downsampleRadius_counterexample_val : downsampleRadius 14 3 1 3 = 7 := by
  rw [downsampleRadius]
  rw [show (14 : ℤ).tdiv 1 = 14 by decide, show (3 : ℤ).tdiv 3 = 1 by decide]
  rw [show max (14 : ℤ) 1 = 14 by decide]
  rw [show (((14 : ℤ) : ℝ)) / 2 = ((7 : ℤ) : ℝ) by norm_num]
  rw [truncZ_of_nonneg (by norm_num), Int.floor_intCast]

theorem downsampleWeight_counterexample_val : downsampleWeight 3 1 = 1 := by
  have hs3 : (0 : ℝ) < Real.sqrt 3 := Real.sqrt_pos.mpr (by norm_num)
  have h1 : (1 : ℝ) < Real.sqrt 3 :=
    (Real.lt_sqrt (by norm_num)).mpr (by norm_num : (1 : ℝ) ^ 2 < 3)
  have h2 : Real.sqrt 3 ≤ 2 :=
    (Real.sqrt_le_left (by norm_num)).mpr (by norm_num : (3 : ℝ) ≤ 2 ^ 2)
  rw [downsampleWeight, show ((1 : ℤ) : ℝ) / ((3 : ℤ) : ℝ) = (1 : ℝ) / 3 by norm_num,
    stretch_one_third]
  rw [truncZ_of_nonneg (by positivity)]
  rw [Int.floor_eq_iff]
  constructor
  · rw [le_div_iff₀ hs3]
    push_cast
    linarith
  · rw [div_lt_iff₀ hs3]
    push_cast
    linarith

/-- Counterexample to claim C2 as stated: for a 14 by 3 input downsampled
to 1 by 3, at output row 1 the code's half-extent is radius times the
truncated stretch, 7 times 1 equals 7, while radius times the real-valued
stretch factor rounded to an integer is 8 (the floor of 14 divided by the
square root of 3, about 8.08): the truncation happens before the
multiplication, not after. -/
theorem geodesic_extent_counterexample :
    downsampleRadius 14 3 1 3 * downsampleWeight 3 1 = 7 ∧
    ⌊(downsampleRadius 14 3 1 3 : ℝ) * stretch (((1 : ℤ) : ℝ) / ((3 : ℤ) : ℝ))⌋ = 8 ∧
    ((7 : ℤ) ≠ 8) := by
  have hs3 : (0 : ℝ) < Real.sqrt 3 := Real.sqrt_pos.mpr (by norm_num)
  refine ⟨?_, ?_, by norm_num⟩
  · rw [downsampleRadius_counterexample_val, downsampleWeight_counterexample_val]
    norm_num
  · rw [downsampleRadius_counterexample_val,
      show ((1 : ℤ) : ℝ) / ((3 : ℤ) : ℝ) = (1 : ℝ) / 3 by norm_num, stretch_one_third]
    have hle : Real.sqrt 3 ≤ 14 / 8 :=
      (Real.sqrt_le_left (by norm_num)).mpr (by norm_num : (3 : ℝ) ≤ (14 / 8) ^ 2)
    have hlt : 14 / 9 < Real.sqrt 3 :=
      (Real.lt_sqrt (by norm_num)).mpr (by norm_num : ((14 : ℝ) / 9) ^ 2 < 3)
    have heq : ((7 : ℤ) : ℝ) * (2 / Real.sqrt 3) = 14 / Real.sqrt 3 := by
      push_cast
      ring
    rw [Int.floor_eq_iff]
    constructor
    · rw [heq, le_div_iff₀ hs3]
      push_cast
      nlinarith
    · rw [heq, div_lt_iff₀ hs3]
      push_cast
      nlinarith

/-- Claim C1: for every output pixel of the geodesic resampler under
dimensionally valid inputs, the written pixel is the kernel-weighted sum
of the sampled input pixels over the full offset square divided by the sum
of the kernel weights, with source indices obtained by flooring the scaled
texture coordinates of the renormalized displaced direction. -/
theorem downsample_pixel_normalized_weighted_sum (ib : ℤ → rgb) (iw ih ow oh oi oj : ℤ)
    (how : 0 < ow) (hoh : 0 < oh) (hwle : ow ≤ iw) (hhle : oh ≤ ih) :
    downsamplePixel ib iw ih ow oh oi oj = specGeodesicPixel ib iw ih ow oh oi oj := by
  have hiw : (0 : ℝ) ≤ (iw : ℝ) := by exact_mod_cast (by omega : (0 : ℤ) ≤ iw)
  have hih : (0 : ℝ) ≤ (ih : ℝ) := by exact_mod_cast (by omega : (0 : ℤ) ≤ ih)
  rw [downsamplePixel_eq_sums]
  simp only [specGeodesicPixel, downsampleKernel]
  have hsamp : ∀ ai aj : ℤ, downsampleSample ib iw ih ow oh oi oj ai aj =
      pixelAt ib iw ⌊(iw : ℝ) * (downsampleUV iw ih ow oh oi oj ai aj).u⌋
        ⌊(ih : ℝ) * (downsampleUV iw ih ow oh oi oj ai aj).v⌋ := by
    intro ai aj
    rw [downsampleSample, downsampleII, downsampleIJ,
      truncZ_of_nonneg (mul_nonneg hiw (by rw [downsampleUV]; exact uv_sphere_u_nonneg _)),
      truncZ_of_nonneg (mul_nonneg hih (by rw [downsampleUV]; exact uv_sphere_v_nonneg _))]
  simp only [hsamp]

/-- Witness for claim C1 at the concrete request of downsampling a 2 by 2
constant zero image to 1 by 1, at output pixel (0, 0). -/
theorem downsample_pixel_normalized_weighted_sum_witness :
    ((0 : ℤ) < 1 ∧ (1 : ℤ) ≤ 2) ∧
    downsamplePixel (fun _ => ⟨0, 0, 0⟩) 2 2 1 1 0 0 =
      specGeodesicPixel (fun _ => ⟨0, 0, 0⟩) 2 2 1 1 0 0 :=
  ⟨⟨by norm_num, by norm_num⟩,
   downsample_pixel_normalized_weighted_sum (fun _ => ⟨0, 0, 0⟩) 2 2 1 1 0 0
     (by norm_num) (by norm_num) (by norm_num) (by norm_num)⟩

theorem downsampleRadius_nonneg {iw ih ow oh : ℤ} (hiw : 0 ≤ iw) (hih : 0 ≤ ih)
    (how : 0 ≤ ow) (hoh : 0 ≤ oh) : 0 ≤ downsampleRadius iw ih ow oh := by
  rw [downsampleRadius]
  apply truncZ_nonneg
  have hmx : (0 : ℤ) ≤ max (iw.tdiv ow) (ih.tdiv oh) :=
    le_trans (Int.tdiv_nonneg hiw how) (le_max_left _ _)
  have hmxR : (0 : ℝ) ≤ ((max (iw.tdiv ow) (ih.tdiv oh) : ℤ) : ℝ) := by exact_mod_cast hmx
  linarith

theorem downsampleWeight_nonneg {oh oj : ℤ} (hoj0 : 0 ≤ oj) (hoj1 : oj < oh) :
    0 ≤ downsampleWeight oh oj := by
  have hoh : (0 : ℤ) < oh := by omega
  have hv0 : (0 : ℝ) ≤ (oj : ℝ) / (oh : ℝ) :=
    div_nonneg (by exact_mod_cast hoj0) (by exact_mod_cast hoh.le)
  have hv1 : (oj : ℝ) / (oh : ℝ) < 1 := by
    rw [div_lt_one (by exact_mod_cast hoh)]
    exact_mod_cast hoj1
  exact truncZ_nonneg (stretch_nonneg hv0 hv1)

/-- On a constant input buffer, one geodesic output pixel reproduces the
constant exactly: the kernel sum is positive and normalizes the weighted
sum of identical samples. -/
theorem downsamplePixel_const (ib : ℤ → rgb) (C : rgb) (hbuf : ∀ i, ib i = C)
    (iw ih ow oh oi oj : ℤ) (hiw : 0 ≤ iw) (hih : 0 ≤ ih) (how : 0 < ow) (hoh : 0 < oh)
    (hoj0 : 0 ≤ oj) (hoj1 : oj < oh) :
    downsamplePixel ib iw ih ow oh oi oj = C := by
  rw [downsamplePixel_eq_sums]
  have he : 0 ≤ downsampleRadius iw ih ow oh * downsampleWeight oh oj :=
    mul_nonneg (downsampleRadius_nonneg hiw hih how.le hoh.le)
      (downsampleWeight_nonneg hoj0 hoj1)
  have hne : (Finset.Icc (-(downsampleRadius iw ih ow oh * downsampleWeight oh oj))
      (downsampleRadius iw ih ow oh * downsampleWeight oh oj)).Nonempty :=
    Finset.nonempty_Icc.mpr (by omega)
  have hK : 0 < ∑ aj ∈ Finset.Icc (-(downsampleRadius iw ih ow oh * downsampleWeight oh oj))
      (downsampleRadius iw ih ow oh * downsampleWeight oh oj),
      ∑ ai ∈ Finset.Icc (-(downsampleRadius iw ih ow oh * downsampleWeight oh oj))
        (downsampleRadius iw ih ow oh * downsampleWeight oh oj),
        downsampleKernel iw ih ow oh oj ai aj :=
    Finset.sum_pos (fun aj _ => Finset.sum_pos (fun ai _ => gauss_pos _ _ _) hne) hne
  have hsample : ∀ ai aj : ℤ, downsampleSample ib iw ih ow oh oi oj ai aj = C :=
    fun ai aj => hbuf _
  simp only [hsample]
  rw [Finset.sum_congr rfl (fun aj _ => sum_rgb_smul_const _ _ C), sum_rgb_smul_const,
    rgb_smul_smul, one_div_mul_cancel hK.ne', rgb_smul_one]

/-- Claim C6: uniform-color invariance of the geodesic resampler: if every
pixel of the (total-function-modelled) input buffer is the color C, then
every written pixel of the output buffer is exactly C, for any valid
output dimensions. -/
theorem downsample_uniform_color (output input : image) (C : rgb)
    (hbuf : ∀ i, input.buffer i = C)
    (how : 0 < output.width) (hoh : 0 < output.height)
    (hwle : output.width ≤ input.width) (hhle : output.height ≤ input.height)
    (k : ℤ) (hk0 : 0 ≤ k) (hk1 : k < output.width * output.height) :
    (downsample output input).buffer k = C := by
  rw [downsample]
  dsimp only
  rw [if_pos ⟨hk0, hk1⟩]
  have hiw : (0 : ℤ) ≤ input.width := by omega
  have hih : (0 : ℤ) ≤ input.height := by omega
  have hoj0 : 0 ≤ k / output.width := Int.ediv_nonneg hk0 how.le
  have hoj1 : k / output.width < output.height :=
    Int.ediv_lt_of_lt_mul how (by rw [mul_comm]; exact hk1)
  exact downsamplePixel_const input.buffer C hbuf _ _ _ _ _ _ hiw hih how hoh hoj0 hoj1

/-- Witness for claim C6: downsampling a constant 2 by 2 image of color
(1, 1/2, 0) to 1 by 1 writes that color at the single output index 0. -/
theorem downsample_uniform_color_witness :
    (∀ i : ℤ, (fun _ : ℤ => (⟨1, 1 / 2, 0⟩ : rgb)) i = ⟨1, 1 / 2, 0⟩) ∧
    (downsample ⟨1, 1, fun _ => ⟨0, 0, 0⟩⟩
      ⟨2, 2, fun _ => ⟨1, 1 / 2, 0⟩⟩).buffer 0 = ⟨1, 1 / 2, 0⟩ :=
  ⟨fun _ => rfl,
   downsample_uniform_color ⟨1, 1, fun _ => ⟨0, 0, 0⟩⟩ ⟨2, 2, fun _ => ⟨1, 1 / 2, 0⟩⟩
     ⟨1, 1 / 2, 0⟩ (fun _ => rfl) (by norm_num) (by norm_num) (by norm_num) (by norm_num)
     0 (by norm_num) (by norm_num)⟩

end
